import Mathlib

/-!
Verification of the statistical core of the Hypo-Test repository
(`src/dbpa/model/core.py`) against its natural-language specification.

The Python core is shallowly embedded here:
* embedding groups are `List (List ℝ)` (a NumPy `(k, dim)` array of floats,
  modelled with real numbers);
* `sklearn.metrics.pairwise.cosine_similarity` is embedded as the pairwise
  cosine-similarity computation, with `sklearn`'s input validation modelled
  as an `Except CoreError` wrapper (a raised `ValueError` becomes
  `Except.error CoreError.invalidInput`);
* `np.histogram(..., density=True)` over `np.linspace` bin edges and
  `scipy.spatial.distance.jensenshannon` are embedded arithmetically;
* the random source consumed by `np.random.permutation` in the permutation
  loop is passed explicitly as a stream `randPerms : ℕ → List ℕ` of index
  permutations, one per loop iteration.
-/

namespace DBPA

/-- Dot product of two real vectors (`float` rows of a NumPy array).
Vectors are paired positionally, as NumPy does for equal-length rows. -/
def dot (x y : List ℝ) : ℝ := (List.zipWith (· * ·) x y).sum

/-- Euclidean norm of a vector, as used by `sklearn`'s row normalisation. -/
noncomputable def norm2 (x : List ℝ) : ℝ := Real.sqrt (dot x x)

/-- Cosine similarity of two vectors: `x·y / (‖x‖‖y‖)`.  `sklearn`
normalises a zero-norm row to itself (treating its norm as 1), so a zero
vector yields similarity 0; with the `x / 0 = 0` convention of `ℝ` the
quotient below agrees with that behaviour. -/
noncomputable def cosineSim (x y : List ℝ) : ℝ := dot x y / (norm2 x * norm2 y)

/-- Intra-group similarities `similarities[np.triu_indices_from(similarities, k=1)]`: the strictly
upper-triangular entries of the pairwise cosine-similarity matrix of one
group, in row-major order. -/
noncomputable def intraSims : List (List ℝ) → List ℝ
  | [] => []
  | x :: xs => xs.map (cosineSim x) ++ intraSims xs

/-- Inter-group similarities `cosine_similarity(embeddings1, embeddings2).flatten()`: the full
inter-group cosine-similarity matrix, flattened in row-major (C) order. -/
noncomputable def interSims (a b : List (List ℝ)) : List ℝ :=
  (a.map (fun x => b.map (cosineSim x))).flatten

/-- The full pairwise cosine-similarity matrix `cosine_similarity(e)`
(entry `i j` is the similarity of rows `i` and `j`). -/
noncomputable def simMatrix (e : List (List ℝ)) : List (List ℝ) :=
  e.map (fun x => e.map (cosineSim x))

/-- Row-major traversal of the strictly upper triangle of a matrix, starting
at row index `i`: from the row with index `i` the entries after column `i`
are kept.  `upperTriFrom 0 m` is `m[np.triu_indices_from(m, k=1)]`. -/
def upperTriFrom : ℕ → List (List ℝ) → List ℝ
  | _, [] => []
  | i, row :: rest => row.drop (i + 1) ++ upperTriFrom (i + 1) rest

/-- Error raised by `sklearn`'s input validation (`ValueError` in Python);
the spec calls this error kind `InvalidInput`. -/
inductive CoreError where
  | invalidInput
deriving DecidableEq

/-- All rows of a group have the same length as the first row (a ragged
nested list cannot be a rectangular `(k, dim)` float ndarray; `sklearn`'s
`check_array` rejects such input). -/
def sameDims (g : List (List ℝ)) : Bool :=
  g.all (fun v => v.length == (g.headD []).length)

/-- Number of columns (features) of a group, read off the first row. -/
def nFeatures (g : List (List ℝ)) : ℕ := (g.headD []).length

/-- Embedding of `calculate_cosine_similarities(embeddings1, embeddings2)` from
`core.py`.  With one argument it returns the strictly upper-triangular
intra-group similarities; with two, the flattened inter-group similarity
matrix.  `sklearn`'s validation raises (here: `CoreError.invalidInput`) on
an empty group, a ragged group, zero features, or an inter-group feature
mismatch; a single-vector group passes validation and yields an empty
similarity collection. -/
noncomputable def calculate_cosine_similarities
    (embeddings1 : List (List ℝ)) (embeddings2 : Option (List (List ℝ))) :
    Except CoreError (List ℝ) :=
  match embeddings2 with
  | none =>
      if !embeddings1.isEmpty && sameDims embeddings1 &&
          (nFeatures embeddings1 != 0) then
        .ok (intraSims embeddings1)
      else
        .error .invalidInput
  | some e2 =>
      if !embeddings1.isEmpty && !e2.isEmpty && sameDims embeddings1 &&
          sameDims e2 && (nFeatures embeddings1 != 0) &&
          (nFeatures embeddings1 == nFeatures e2) then
        .ok (interSims embeddings1 e2)
      else
        .error .invalidInput

/-- Smallest element of a score collection (`scores.min()`; NumPy raises on
an empty array, so the value at `[]` is junk and every claim about scores
carries a non-emptiness assumption where it matters). -/
noncomputable def minScore : List ℝ → ℝ
  | [] => 0
  | x :: xs => xs.foldl min x

/-- Largest element of a score collection (`scores.max()`). -/
noncomputable def maxScore : List ℝ → ℝ
  | [] => 0
  | x :: xs => xs.foldl max x

/-- Width of one histogram bin: `np.linspace(lo, hi, bins + 1)` splits
`[lo, hi]` into `bins` intervals of width `(hi - lo) / bins`. -/
noncomputable def binWidth (lo hi : ℝ) (bins : ℕ) : ℝ := (hi - lo) / bins

/-- Number of scores falling into bin `j` of `np.histogram` over the edges
`np.linspace(lo, hi, bins + 1)`: bin `j` is `[e_j, e_{j+1})`, except the
last bin, which is closed on the right. -/
noncomputable def binCount (scores : List ℝ) (lo hi : ℝ) (bins j : ℕ) : ℕ :=
  let w := binWidth lo hi bins
  if j + 1 < bins then
    scores.countP (fun x =>
      decide (lo + (j : ℝ) * w ≤ x) && decide (x < lo + ((j : ℝ) + 1) * w))
  else
    scores.countP (fun x => decide (lo + (j : ℝ) * w ≤ x) && decide (x ≤ hi))

/-- Embedding of `np.histogram(scores, bins=np.linspace(lo, hi, bins + 1), density=True)`:
raw bin counts divided by `counts.sum() * bin_width`.  When `lo = hi` the
bin width is zero and NumPy's density normalisation divides by zero
(producing non-finite values); no epsilon widening is performed. -/
noncomputable def densityHist (scores : List ℝ) (lo hi : ℝ) (bins : ℕ) :
    List ℝ :=
  let counts := (List.range bins).map
    (fun j => ((binCount scores lo hi bins j : ℕ) : ℝ))
  let total := counts.sum
  counts.map (fun c => c / (total * binWidth lo hi bins))

/-- Embedding of the `scipy.special.rel_entr` elementwise term `x * log(x / y)`, which is `0`
when `x = 0`.  (The `x > 0, y = 0` infinity case is unreachable in this
pipeline because the mixture `m` is positive wherever `p` is.) -/
noncomputable def relEntr (x y : ℝ) : ℝ :=
  if x = 0 then 0 else x * Real.log (x / y)

/-- Embedding of `scipy.spatial.distance.jensenshannon(p, q)`: both inputs are
normalised to sum 1, the Jensen-Shannon divergence against the mixture
`m = (p + q) / 2` is formed from the two relative-entropy sums, halved, and
the square root is returned. -/
noncomputable def jensenshannon (p q : List ℝ) : ℝ :=
  let pn := p.map (fun a => a / p.sum)
  let qn := q.map (fun a => a / q.sum)
  let m := List.zipWith (fun a b => (a + b) / 2) pn qn
  Real.sqrt (((List.zipWith relEntr pn m).sum +
    (List.zipWith relEntr qn m).sum) / 2)

/-- Embedding of `_calculate_jsd(scores1, scores2)` from `core.py`: shared binning range
`[min(s1.min(), s2.min()), max(s1.max(), s2.max())]`, one density histogram
per collection, then `jensenshannon` of the two histograms. -/
noncomputable def calc_jsd (scores1 scores2 : List ℝ) (bins : ℕ) : ℝ :=
  let lo := min (minScore scores1) (minScore scores2)
  let hi := max (maxScore scores1) (maxScore scores2)
  jensenshannon (densityHist scores1 lo hi bins)
    (densityHist scores2 lo hi bins)

/-- Synthetic group `combined_embeddings[permuted_indices[:k]]`: the first `k` permuted
indices select the synthetic group `A'` (row selection by fancy indexing,
which copies). -/
def perm_group1 (combined : List (List ℝ)) (idx : List ℕ) (k : ℕ) :
    List (List ℝ) :=
  (idx.take k).map (fun i => combined.getD i [])

/-- Synthetic group `combined_embeddings[permuted_indices[k:]]`: the remaining permuted
indices select the synthetic group `B'`. -/
def perm_group2 (combined : List (List ℝ)) (idx : List ℕ) (k : ℕ) :
    List (List ℝ) :=
  (idx.drop k).map (fun i => combined.getD i [])

/-- One iteration of the permutation loop: split the pooled embeddings by
the drawn index permutation and recompute the test statistic on the
synthetic groups, exactly as for the observed statistic. -/
noncomputable def permIteration (combined : List (List ℝ)) (k bins : ℕ)
    (idx : List ℕ) : Except CoreError ℝ := do
  let g1 := perm_group1 combined idx k
  let g2 := perm_group2 combined idx k
  let p0 ← calculate_cosine_similarities g1 none
  let p1 ← calculate_cosine_similarities g1 (some g2)
  pure (calc_jsd p0 p1 bins)

/-- The body of the `for` loop of `jensen_shannon_divergence_and_pvalue`:
run one permutation iteration and increment the counter when the permuted
statistic is at least the observed one (`perm_jsd >= observed_jsd`). -/
noncomputable def permStep (combined : List (List ℝ)) (k bins : ℕ)
    (randPerms : ℕ → List ℕ) (observed : ℝ) (cnt : ℕ) (i : ℕ) :
    Except CoreError ℕ := do
  let t ← permIteration combined k bins (randPerms i)
  pure (if observed ≤ t then cnt + 1 else cnt)

/-- Embedding of `jensen_shannon_divergence_and_pvalue(embeddings1, embeddings2,
num_permutations, bins)` from `core.py`.  The observed statistic compares
the intra-`A` similarities with the `A`-to-`B` similarities; the loop draws
`numPermutations` index permutations from the explicit random stream
`randPerms`, counts permuted statistics at least as large as the observed
one, and the returned p-value is `(count + 1) / (num_permutations + 1)`. -/
noncomputable def jensen_shannon_divergence_and_pvalue
    (embeddings1 embeddings2 : List (List ℝ)) (numPermutations bins : ℕ)
    (randPerms : ℕ → List ℕ) : Except CoreError (ℝ × ℝ) := do
  let p0 ← calculate_cosine_similarities embeddings1 none
  let p1 ← calculate_cosine_similarities embeddings1 (some embeddings2)
  let observed := calc_jsd p0 p1 bins
  let combined := embeddings1 ++ embeddings2
  let k := embeddings1.length
  let count ← (List.range numPermutations).foldlM
    (permStep combined k bins randPerms observed) 0
  pure (observed, ((count : ℝ) + 1) / ((numPermutations : ℝ) + 1))

/-- The observed test statistic `T_obs`:
`_calculate_jsd(similarities(A), similarities(A, B))`. -/
noncomputable def observedStat (e1 e2 : List (List ℝ)) (bins : ℕ) : ℝ :=
  calc_jsd (intraSims e1) (interSims e1 e2) bins

/-- The permuted test statistic of loop iteration `i`: the pooled
embeddings are split by `randPerms i` into the first `|A|` rows and the
rest, and the statistic is recomputed on that split. -/
noncomputable def permStatIdx (e1 e2 : List (List ℝ)) (bins : ℕ)
    (randPerms : ℕ → List ℕ) (i : ℕ) : ℝ :=
  calc_jsd
    (intraSims (perm_group1 (e1 ++ e2) (randPerms i) e1.length))
    (interSims (perm_group1 (e1 ++ e2) (randPerms i) e1.length)
      (perm_group2 (e1 ++ e2) (randPerms i) e1.length))
    bins

/-- Number of permutation iterations whose statistic reaches the observed
one: the value of `count` after the loop. -/
noncomputable def permCount (e1 e2 : List (List ℝ)) (n bins : ℕ)
    (randPerms : ℕ → List ℕ) : ℕ :=
  (List.range n).countP
    (fun i => decide (observedStat e1 e2 bins ≤ permStatIdx e1 e2 bins randPerms i))

/-! ### Basic lemmas about the similarity engine -/

lemma dot_nil_left (y : List ℝ) : dot [] y = 0 := rfl

lemma dot_cons_cons (a b : ℝ) (x y : List ℝ) :
    dot (a :: x) (b :: y) = a * b + dot x y := by
  simp [dot]

lemma dot_self_nonneg (x : List ℝ) : 0 ≤ dot x x := by
  induction x with
  | nil => simp [dot]
  | cons a x ih =>
      rw [dot_cons_cons]
      nlinarith [sq_nonneg a]

/-- Cauchy–Schwarz for positionally paired lists. -/
lemma dot_sq_le_dot_mul_dot (x y : List ℝ) :
    dot x y ^ 2 ≤ dot x x * dot y y := by
  induction x generalizing y with
  | nil => simp [dot]
  | cons a x ih =>
      cases y with
      | nil => simp [dot]
      | cons b y =>
          have hx := dot_self_nonneg x
          have hy := dot_self_nonneg y
          have h := ih y
          rw [dot_cons_cons, dot_cons_cons, dot_cons_cons]
          rcases hy.eq_or_lt with hY0 | hYpos
          · have hS : dot x y = 0 := by nlinarith [sq_nonneg (dot x y)]
            rw [hS, ← hY0]
            nlinarith [mul_nonneg hx (mul_self_nonneg b)]
          · nlinarith [sq_nonneg (a * dot y y - b * dot x y),
              mul_nonneg (mul_self_nonneg b)
                (show (0:ℝ) ≤ dot x x * dot y y - dot x y ^ 2 by linarith),
              mul_nonneg hYpos.le
                (show (0:ℝ) ≤ dot x x * dot y y - dot x y ^ 2 by linarith)]

lemma norm2_nonneg (x : List ℝ) : 0 ≤ norm2 x := Real.sqrt_nonneg _

lemma abs_dot_le (x y : List ℝ) : |dot x y| ≤ norm2 x * norm2 y := by
  have h := dot_sq_le_dot_mul_dot x y
  have hx := dot_self_nonneg x
  calc |dot x y| = Real.sqrt (dot x y ^ 2) := (Real.sqrt_sq_eq_abs _).symm
    _ ≤ Real.sqrt (dot x x * dot y y) := Real.sqrt_le_sqrt h
    _ = norm2 x * norm2 y := by rw [norm2, norm2, Real.sqrt_mul hx]

/-- Every cosine similarity lies in `[-1, 1]`. -/
lemma cosineSim_bounds (x y : List ℝ) :
    -1 ≤ cosineSim x y ∧ cosineSim x y ≤ 1 := by
  have habs : |cosineSim x y| ≤ 1 := by
    rcases eq_or_lt_of_le
        (mul_nonneg (norm2_nonneg x) (norm2_nonneg y)) with h0 | hpos
    · simp [cosineSim, ← h0]
    · rw [cosineSim, abs_div, abs_of_pos hpos]
      exact (div_le_one hpos).mpr (abs_dot_le x y)
  exact abs_le.mp habs

lemma intraSims_length (e : List (List ℝ)) :
    (intraSims e).length = e.length.choose 2 := by
  induction e with
  | nil => simp [intraSims]
  | cons x xs ih =>
      simp only [intraSims, List.length_append, List.length_map,
        List.length_cons, ih, Nat.choose_succ_succ, Nat.choose_one_right]

lemma intraSims_mem_bounds (e : List (List ℝ)) :
    ∀ s ∈ intraSims e, -1 ≤ s ∧ s ≤ 1 := by
  induction e with
  | nil => simp [intraSims]
  | cons x xs ih =>
      intro s hs
      rcases List.mem_append.mp hs with h | h
      · rcases List.mem_map.mp h with ⟨y, _, rfl⟩
        exact cosineSim_bounds x y
      · exact ih s h

lemma interSims_length (a b : List (List ℝ)) :
    (interSims a b).length = a.length * b.length := by
  induction a with
  | nil => simp [interSims]
  | cons x xs ih =>
      simp only [interSims, List.map_cons, List.flatten_cons,
        List.length_append, List.length_map, List.length_cons] at *
      rw [ih]
      ring

lemma interSims_mem_bounds (a b : List (List ℝ)) :
    ∀ s ∈ interSims a b, -1 ≤ s ∧ s ≤ 1 := by
  intro s hs
  simp only [interSims, List.mem_flatten, List.mem_map] at hs
  obtain ⟨row, ⟨x, _, rfl⟩, hrow⟩ := hs
  obtain ⟨y, _, rfl⟩ := List.mem_map.mp hrow
  exact cosineSim_bounds x y

/-- Auxiliary step for the row-major upper-triangle characterisation:
prefixing one extra entry to every row while starting the traversal one
column later leaves the extracted entries unchanged. -/
lemma upperTriFrom_zipWith_cons (cs : List ℝ) (rows : List (List ℝ)) (i : ℕ)
    (h : cs.length = rows.length) :
    upperTriFrom (i + 1) (List.zipWith (fun c r => c :: r) cs rows) =
      upperTriFrom i rows := by
  induction rows generalizing cs i with
  | nil =>
      have : cs = [] := List.length_eq_zero.mp (by simpa using h)
      simp [this, upperTriFrom]
  | cons r rest ih =>
      cases cs with
      | nil => simp at h
      | cons c cs' =>
          simp only [List.zipWith_cons_cons, upperTriFrom, List.drop_succ_cons]
          rw [ih cs' (i + 1) (by simpa using h)]

lemma zipWith_cons_map {α : Type} (f : α → ℝ) (g : α → List ℝ)
    (l : List α) :
    List.zipWith (fun c r => c :: r) (l.map f) (l.map g) =
      l.map (fun a => f a :: g a) := by
  induction l with
  | nil => rfl
  | cons a l ih => simp [ih]

/-- `intraSims` is exactly the row-major strictly-upper-triangular
traversal of the full pairwise similarity matrix. -/
lemma intraSims_eq_upperTri (e : List (List ℝ)) :
    intraSims e = upperTriFrom 0 (simMatrix e) := by
  induction e with
  | nil => rfl
  | cons x xs ih =>
      have h1 : simMatrix (x :: xs) =
          (cosineSim x x :: xs.map (cosineSim x)) ::
            xs.map (fun a => cosineSim a x :: xs.map (cosineSim a)) := by
        simp [simMatrix]
      rw [h1]
      show xs.map (cosineSim x) ++ intraSims xs =
        (cosineSim x x :: xs.map (cosineSim x)).drop 1 ++
          upperTriFrom 1 (xs.map (fun a => cosineSim a x :: xs.map (cosineSim a)))
      rw [List.drop_succ_cons, List.drop_zero]
      congr 1
      rw [← zipWith_cons_map (fun a => cosineSim a x)
        (fun a => xs.map (cosineSim a)) xs]
      exact ih.trans
        (upperTriFrom_zipWith_cons _ _ 0 (by simp [simMatrix])).symm

/-! ### Validation success lemmas -/

lemma sameDims_of_forall {e : List (List ℝ)} {d : ℕ}
    (h : ∀ v ∈ e, v.length = d) (hne : e ≠ []) : sameDims e = true := by
  rw [sameDims, List.all_eq_true]
  intro v hv
  cases e with
  | nil => exact absurd rfl hne
  | cons w ws =>
      have hw : w.length = d := h w (List.mem_cons_self w _)
      have hv' : v.length = d := h v hv
      simp [hv', hw]

lemma nFeatures_eq {e : List (List ℝ)} {d : ℕ}
    (h : ∀ v ∈ e, v.length = d) (hne : e ≠ []) : nFeatures e = d := by
  cases e with
  | nil => exact absurd rfl hne
  | cons w ws => exact h w (List.mem_cons_self w _)

lemma calc_intra_ok {e : List (List ℝ)} {d : ℕ} (hd : 0 < d)
    (hne : e ≠ []) (hdim : ∀ v ∈ e, v.length = d) :
    calculate_cosine_similarities e none = .ok (intraSims e) := by
  have h1 : e.isEmpty = false := by
    cases e with
    | nil => exact absurd rfl hne
    | cons w ws => rfl
  have h2 := sameDims_of_forall hdim hne
  have h3 : nFeatures e != 0 := by
    rw [nFeatures_eq hdim hne]
    simpa using hd.ne'
  simp [calculate_cosine_similarities, h1, h2, h3]

lemma calc_inter_ok {a b : List (List ℝ)} {d : ℕ} (hd : 0 < d)
    (hnea : a ≠ []) (hneb : b ≠ [])
    (hdima : ∀ v ∈ a, v.length = d) (hdimb : ∀ v ∈ b, v.length = d) :
    calculate_cosine_similarities a (some b) = .ok (interSims a b) := by
  have h1 : a.isEmpty = false := by
    cases a with
    | nil => exact absurd rfl hnea
    | cons w ws => rfl
  have h1b : b.isEmpty = false := by
    cases b with
    | nil => exact absurd rfl hneb
    | cons w ws => rfl
  have h2a := sameDims_of_forall hdima hnea
  have h2b := sameDims_of_forall hdimb hneb
  have h3 : nFeatures a != 0 := by
    rw [nFeatures_eq hdima hnea]
    simpa using hd.ne'
  have h4 : nFeatures a == nFeatures b := by
    rw [nFeatures_eq hdima hnea, nFeatures_eq hdimb hneb]
    simp
  simp [calculate_cosine_similarities, h1, h1b, h2a, h2b, h3, h4]

/-! ### The permuted split is a rearrangement of the pool -/

lemma range_map_getD (l : List (List ℝ)) :
    (List.range l.length).map (fun i => l.getD i []) = l := by
  induction l with
  | nil => rfl
  | cons x xs ih =>
      rw [List.length_cons, List.range_succ_eq_map, List.map_cons,
        List.map_map]
      congr 1

lemma perm_groups_append {combined : List (List ℝ)} {idx : List ℕ} (k : ℕ) :
    perm_group1 combined idx k ++ perm_group2 combined idx k =
      idx.map (fun i => combined.getD i []) := by
  rw [perm_group1, perm_group2, ← List.map_append, List.take_append_drop]

lemma perm_groups_perm {combined : List (List ℝ)} {idx : List ℕ} (k : ℕ)
    (hperm : idx.Perm (List.range combined.length)) :
    (perm_group1 combined idx k ++ perm_group2 combined idx k).Perm
      combined := by
  rw [perm_groups_append]
  have h := hperm.map (fun i => combined.getD i [])
  rwa [range_map_getD] at h

lemma perm_group1_length {combined : List (List ℝ)} {idx : List ℕ} {k : ℕ}
    (hlen : idx.length = combined.length) (hk : k ≤ combined.length) :
    (perm_group1 combined idx k).length = k := by
  simp [perm_group1, hlen, hk, Nat.min_eq_left]

lemma perm_group2_length {combined : List (List ℝ)} {idx : List ℕ} {k : ℕ}
    (hlen : idx.length = combined.length) :
    (perm_group2 combined idx k).length = combined.length - k := by
  simp [perm_group2, hlen]

lemma perm_group_mem_dims {combined : List (List ℝ)} {idx : List ℕ} {d : ℕ}
    (hperm : idx.Perm (List.range combined.length))
    (hdim : ∀ v ∈ combined, v.length = d) :
    ∀ l : List ℕ, l.Sublist idx →
      ∀ v ∈ l.map (fun i => combined.getD i []), v.length = d := by
  intro l hsub v hv
  obtain ⟨i, hil, rfl⟩ := List.mem_map.mp hv
  have hi : i ∈ idx := hsub.mem hil
  have hi' : i < combined.length := by
    have := hperm.mem_iff.mp hi
    simpa [List.mem_range] using this
  rw [List.getD_eq_getElem _ _ hi']
  exact hdim _ (List.getElem_mem hi')

/-! ### Characterising the permutation loop -/

lemma ok_bind {α β : Type} (a : α) (f : α → Except CoreError β) :
    (Except.ok a : Except CoreError α) >>= f = f a := rfl

lemma permIteration_ok {combined : List (List ℝ)} {idx : List ℕ} {d k : ℕ}
    (bins : ℕ) (hd : 0 < d) (hdim : ∀ v ∈ combined, v.length = d)
    (hperm : idx.Perm (List.range combined.length))
    (hk1 : 0 < k) (hk2 : k < combined.length) :
    permIteration combined k bins idx =
      .ok (calc_jsd (intraSims (perm_group1 combined idx k))
        (interSims (perm_group1 combined idx k)
          (perm_group2 combined idx k)) bins) := by
  have hlen : idx.length = combined.length :=
    hperm.length_eq.trans (List.length_range _)
  have hg1len : (perm_group1 combined idx k).length = k :=
    perm_group1_length hlen hk2.le
  have hg2len : (perm_group2 combined idx k).length = combined.length - k :=
    perm_group2_length hlen
  have hg1ne : perm_group1 combined idx k ≠ [] := by
    rw [← List.length_pos]
    omega
  have hg2ne : perm_group2 combined idx k ≠ [] := by
    rw [← List.length_pos]
    omega
  have hdim1 : ∀ v ∈ perm_group1 combined idx k, v.length = d :=
    perm_group_mem_dims hperm hdim (idx.take k) (List.take_sublist k idx)
  have hdim2 : ∀ v ∈ perm_group2 combined idx k, v.length = d :=
    perm_group_mem_dims hperm hdim (idx.drop k) (List.drop_sublist k idx)
  have c1 := calc_intra_ok hd hg1ne hdim1
  have c2 := calc_inter_ok hd hg1ne hg2ne hdim1 hdim2
  simp [permIteration, c1, c2, ok_bind]

lemma foldlM_permStep_eq {combined : List (List ℝ)} {k bins : ℕ}
    {randPerms : ℕ → List ℕ} {f : ℕ → ℝ} (observed : ℝ) (l : List ℕ) (c : ℕ)
    (h : ∀ i ∈ l, permIteration combined k bins (randPerms i) = .ok (f i)) :
    List.foldlM (permStep combined k bins randPerms observed) c l =
      .ok (c + l.countP (fun i => decide (observed ≤ f i))) := by
  induction l generalizing c with
  | nil => rfl
  | cons a l ih =>
      rw [List.foldlM_cons]
      have ha := h a (List.mem_cons_self a l)
      have hstep : permStep combined k bins randPerms observed c a =
          .ok (if observed ≤ f a then c + 1 else c) := by
        simp [permStep, ha]
      rw [hstep]
      have ih' := ih (if observed ≤ f a then c + 1 else c)
        (fun i hi => h i (List.mem_cons_of_mem a hi))
      show List.foldlM (permStep combined k bins randPerms observed)
        (if observed ≤ f a then c + 1 else c) l = _
      rw [ih', List.countP_cons]
      by_cases hc : observed ≤ f a
      · simp [hc]
        omega
      · simp [hc]

/-- Shared characterisation of `jensen_shannon_divergence_and_pvalue` on
valid inputs: observed statistic as described and smoothed p-value. -/
lemma jsd_pvalue_characterisation {e1 e2 : List (List ℝ)} {d : ℕ}
    (n bins : ℕ) (randPerms : ℕ → List ℕ) (hd : 0 < d)
    (h1 : 2 ≤ e1.length) (h2 : 1 ≤ e2.length)
    (hdim1 : ∀ v ∈ e1, v.length = d) (hdim2 : ∀ v ∈ e2, v.length = d)
    (hperm : ∀ i < n,
      (randPerms i).Perm (List.range (e1.length + e2.length))) :
    jensen_shannon_divergence_and_pvalue e1 e2 n bins randPerms =
      .ok (observedStat e1 e2 bins,
        ((permCount e1 e2 n bins randPerms : ℝ) + 1) / ((n : ℝ) + 1)) := by
  have hne1 : e1 ≠ [] := by
    rw [← List.length_pos]
    omega
  have hne2 : e2 ≠ [] := by
    rw [← List.length_pos]
    omega
  have hdimc : ∀ v ∈ e1 ++ e2, v.length = d := by
    intro v hv
    rcases List.mem_append.mp hv with h | h
    · exact hdim1 v h
    · exact hdim2 v h
  have c1 := calc_intra_ok hd hne1 hdim1
  have c2 := calc_inter_ok hd hne1 hne2 hdim1 hdim2
  have hiter : ∀ i ∈ List.range n,
      permIteration (e1 ++ e2) e1.length bins (randPerms i) =
        .ok (permStatIdx e1 e2 bins randPerms i) := by
    intro i hi
    have hp := hperm i (List.mem_range.mp hi)
    rw [← List.length_append] at hp
    exact permIteration_ok bins hd hdimc hp (by omega)
      (by rw [List.length_append]; omega)
  have hfold := foldlM_permStep_eq
    (calc_jsd (intraSims e1) (interSims e1 e2) bins) (List.range n) 0 hiter
  simp only [jensen_shannon_divergence_and_pvalue, c1, c2, ok_bind, hfold,
    Nat.zero_add]
  rfl

/-! ### Symmetry and self-annihilation of the divergence estimator -/

lemma relEntr_self (a : ℝ) : relEntr a a = 0 := by
  rw [relEntr]
  by_cases h : a = 0
  · simp [h]
  · simp [h, div_self h]

lemma jensenshannon_comm (p q : List ℝ) :
    jensenshannon p q = jensenshannon q p := by
  rw [jensenshannon, jensenshannon]
  rw [List.zipWith_comm_of_comm (fun a b => (a + b) / 2)
    (fun a b => by ring)]
  congr 1
  ring

lemma map_half_add_self (l : List ℝ) : l.map (fun a => (a + a) / 2) = l := by
  induction l with
  | nil => rfl
  | cons a l ih =>
      rw [List.map_cons, ih]
      congr 1
      ring

lemma sum_map_relEntr_self (g : ℝ → ℝ) (l : List ℝ) :
    (l.map (fun a => relEntr (g a) (g a))).sum = 0 := by
  induction l with
  | nil => rfl
  | cons a l ih => simp [relEntr_self, ih]

lemma jensenshannon_self (p : List ℝ) : jensenshannon p p = 0 := by
  rw [jensenshannon]
  simp [List.zipWith_same, map_half_add_self, sum_map_relEntr_self]

/-- `_calculate_jsd` is symmetric in its two score collections. -/
lemma calc_jsd_comm (scores1 scores2 : List ℝ) (bins : ℕ) :
    calc_jsd scores1 scores2 bins = calc_jsd scores2 scores1 bins := by
  rw [calc_jsd, calc_jsd, min_comm (minScore scores2),
    max_comm (maxScore scores2)]
  exact jensenshannon_comm _ _

/-- `_calculate_jsd` of a collection against itself is exactly zero. -/
lemma calc_jsd_self (scores : List ℝ) (bins : ℕ) :
    calc_jsd scores scores bins = 0 := by
  rw [calc_jsd]
  exact jensenshannon_self _

/-! ### The perturbation quantifier (spec-modelled)

`interface.py` imports `quantify_perturbations` from `dbpa.model.core`, but
the provided `core.py` does not define it; only its caller is available.
The definitions in this section are therefore modelled from the spec
(§4.4 and §6) rather than translated from source code. -/

/-- Statistical method selected by the `method` argument
(`choices=['energy', 'jsd']` in the CLI). -/
inductive Method where
  | energy
  | jsd
deriving DecidableEq

/-- Distance metric selected by the `distance` argument
(`choices=['cosine', 'l1', 'l2']`). -/
inductive DistanceMetric where
  | cosine
  | l1
  | l2
deriving DecidableEq

/-- Modelled from the spec: pairwise distance for the energy method, using
the selected metric in place of cosine similarity. -/
noncomputable def pairDistance (m : DistanceMetric) (x y : List ℝ) : ℝ :=
  match m with
  | .cosine => 1 - cosineSim x y
  | .l1 => (List.zipWith (fun a b => |a - b|) x y).sum
  | .l2 => Real.sqrt ((List.zipWith (fun a b => (a - b) ^ 2) x y).sum)

/-- Modelled from the spec: intra-group pairwise distances (upper-triangle
collection, analogous to `intraSims`). -/
noncomputable def intraDists (m : DistanceMetric) : List (List ℝ) → List ℝ
  | [] => []
  | x :: xs => xs.map (pairDistance m x) ++ intraDists m xs

/-- Modelled from the spec: inter-group pairwise distances (flattened
row-major, analogous to `interSims`). -/
noncomputable def interDists (m : DistanceMetric) (a b : List (List ℝ)) :
    List ℝ :=
  (a.map (fun x => b.map (pairDistance m x))).flatten

/-- Mean absolute difference between two score samples. -/
noncomputable def meanAbsDiff (xs ys : List ℝ) : ℝ :=
  ((xs.map (fun x => ys.map (fun y => |x - y|))).flatten).sum /
    ((xs.length : ℝ) * (ys.length : ℝ))

/-- Modelled from the spec: the energy distance between two empirical
score distributions, `2·E|X−Y| − E|X−X'| − E|Y−Y'|`. -/
noncomputable def energyDistance (xs ys : List ℝ) : ℝ :=
  2 * meanAbsDiff xs ys - meanAbsDiff xs xs - meanAbsDiff ys ys

/-- Modelled from the spec: the energy test statistic of two embedding
groups, computed from the same asymmetric pair of score collections as the
JSD statistic (intra-`A` vs `A`-to-`B`). -/
noncomputable def energy_statistic (m : DistanceMetric)
    (a b : List (List ℝ)) : ℝ :=
  energyDistance (intraDists m a) (interDists m a b)

/-- Modelled from the spec: the energy-method permutation test, with the
same permutation-test structure as the JSD test (pool, split by a drawn
permutation, count permuted statistics at least the observed one,
additively smoothed p-value). -/
noncomputable def energy_test (a b : List (List ℝ)) (m : DistanceMetric)
    (n : ℕ) (randPerms : ℕ → List ℕ) : ℝ × ℝ :=
  let observed := energy_statistic m a b
  let combined := a ++ b
  let k := a.length
  let count := (List.range n).countP (fun i =>
    decide (observed ≤ energy_statistic m
      (perm_group1 combined (randPerms i) k)
      (perm_group2 combined (randPerms i) k)))
  (observed, ((count : ℝ) + 1) / ((n : ℝ) + 1))

/-- Modelled from the spec: `quantify_perturbations(text_orig, change,
method, distance, num_permutations)`, the operation `interface.py` imports
from `dbpa.model.core` but which is absent from the provided `core.py`.
The external text-substitution and embedding collaborators are injected as
`substitute` and `embed`; the function embeds the original and the
perturbed text and dispatches on `method` to the JSD permutation tester or
the energy permutation test. -/
noncomputable def quantify_perturbations
    (embed : String → List (List ℝ))
    (substitute : String → List (String × String) → String)
    (text_orig : String) (change : List (String × String))
    (method : Method) (distance : DistanceMetric)
    (num_permutations bins : ℕ) (randPerms : ℕ → List ℕ) :
    Except CoreError (ℝ × ℝ) :=
  let a := embed text_orig
  let b := embed (substitute text_orig change)
  match method with
  | .jsd =>
      jensen_shannon_divergence_and_pvalue a b num_permutations bins
        randPerms
  | .energy => .ok (energy_test a b distance num_permutations randPerms)

/-! ### Heap-allocation view of the permutation test

To express the frame property (the input arrays are never modified), the
test is replayed against an explicit arena of allocated arrays.  Every
NumPy operation of the source that produces an array (`np.vstack`, fancy
row indexing) is an allocation appending to the arena; no operation writes
to an existing cell, mirroring the absence of in-place modification in
`jensen_shannon_divergence_and_pvalue`. -/

/-- An arena of allocated 2-D arrays, addressed by position. -/
structure Heap where
  arrays : List (List (List ℝ))

/-- Read the array stored at index `i`. -/
def readArr (h : Heap) (i : ℕ) : List (List ℝ) := h.arrays.getD i []

/-- Allocate a fresh array: append it to the arena and return its index. -/
def alloc (h : Heap) (a : List (List ℝ)) : Heap × ℕ :=
  (⟨h.arrays ++ [a]⟩, h.arrays.length)

/-- The permutation loop, with the two fancy-indexing row selections of
each iteration performed as fresh allocations against the arena. -/
noncomputable def jsd_loop_heap (h : Heap) (ic k bins : ℕ) (observed : ℝ) :
    List (List ℕ) → ℕ → Except CoreError ℕ × Heap
  | [], count => (.ok count, h)
  | idx :: rest, count =>
      let al1 := alloc h (perm_group1 (readArr h ic) idx k)
      let al2 := alloc al1.1 (perm_group2 (readArr al1.1 ic) idx k)
      match calculate_cosine_similarities (readArr al2.1 al1.2) none,
          calculate_cosine_similarities (readArr al2.1 al1.2)
            (some (readArr al2.1 al2.2)) with
      | .ok p0, .ok p1 =>
          jsd_loop_heap al2.1 ic k bins observed rest
            (if observed ≤ calc_jsd p0 p1 bins then count + 1 else count)
      | _, _ => (.error .invalidInput, al2.1)

/-- The permutation test replayed on the arena: the
input groups live at indices `i1` and `i2`; pooling (`np.vstack`) is an
allocation; the final arena is returned alongside the result. -/
noncomputable def jsd_pvalue_heap (h : Heap) (i1 i2 n bins : ℕ)
    (randPerms : ℕ → List ℕ) : Except CoreError (ℝ × ℝ) × Heap :=
  match calculate_cosine_similarities (readArr h i1) none,
      calculate_cosine_similarities (readArr h i1) (some (readArr h i2)) with
  | .ok p0, .ok p1 =>
      let observed := calc_jsd p0 p1 bins
      let al := alloc h (readArr h i1 ++ readArr h i2)
      let r := jsd_loop_heap al.1 al.2 (readArr h i1).length bins observed
        ((List.range n).map randPerms) 0
      (r.1.map (fun count =>
        (observed, ((count : ℝ) + 1) / ((n : ℝ) + 1))), r.2)
  | _, _ => (.error .invalidInput, h)

lemma alloc_preserves (h : Heap) (a : List (List ℝ)) {j : ℕ}
    (hj : j < h.arrays.length) :
    (alloc h a).1.arrays.getD j [] = h.arrays.getD j [] :=
  List.getD_append _ _ _ _ hj

lemma alloc_length_le (h : Heap) (a : List (List ℝ)) :
    h.arrays.length ≤ (alloc h a).1.arrays.length := by
  simp [alloc]

lemma jsd_loop_heap_preserves (ic k bins : ℕ) (observed : ℝ)
    (idxs : List (List ℕ)) :
    ∀ (h : Heap) (count : ℕ) (j : ℕ), j < h.arrays.length →
      (jsd_loop_heap h ic k bins observed idxs count).2.arrays.getD j [] =
        h.arrays.getD j [] := by
  induction idxs with
  | nil =>
      intro h count j hj
      rfl
  | cons idx rest ih =>
      intro h count j hj
      rw [jsd_loop_heap]
      set al1 := alloc h (perm_group1 (readArr h ic) idx k) with hal1
      set al2 := alloc al1.1 (perm_group2 (readArr al1.1 ic) idx k) with hal2
      have hj1 : j < al1.1.arrays.length :=
        lt_of_lt_of_le hj (alloc_length_le h _)
      have hj2 : j < al2.1.arrays.length :=
        lt_of_lt_of_le hj1 (alloc_length_le al1.1 _)
      have hpres : al2.1.arrays.getD j [] = h.arrays.getD j [] := by
        rw [hal2, alloc_preserves al1.1 _ hj1, hal1, alloc_preserves h _ hj]
      cases hc1 : calculate_cosine_similarities (readArr al2.1 al1.2) none with
      | error e =>
          simp only [hc1]
          exact hpres
      | ok p0 =>
          cases hc2 : calculate_cosine_similarities (readArr al2.1 al1.2)
              (some (readArr al2.1 al2.2)) with
          | error e =>
              simp only [hc1, hc2]
              exact hpres
          | ok p1 =>
              simp only [hc1, hc2]
              rw [ih al2.1 _ j hj2]
              exact hpres

/-! ### Congruence of the loop in the random stream -/

lemma foldlM_permStep_congr {combined : List (List ℝ)} {k bins : ℕ}
    {observed : ℝ} {r1 r2 : ℕ → List ℕ} (l : List ℕ)
    (h : ∀ i ∈ l, r1 i = r2 i) (c : ℕ) :
    List.foldlM (permStep combined k bins r1 observed) c l =
      List.foldlM (permStep combined k bins r2 observed) c l := by
  induction l generalizing c with
  | nil => rfl
  | cons a l ih =>
      rw [List.foldlM_cons, List.foldlM_cons]
      have hstep : permStep combined k bins r1 observed c a =
          permStep combined k bins r2 observed c a := by
        rw [permStep, permStep, h a (List.mem_cons_self a l)]
      rw [hstep]
      cases hs : permStep combined k bins r2 observed c a with
      | error e => rfl
      | ok c' =>
          show List.foldlM (permStep combined k bins r1 observed) c' l = _
          exact ih (fun i hi => h i (List.mem_cons_of_mem a hi)) c'

/-! ### Claim theorems -/

/-- C4 (counterexample): the claim says the intra-group similarity
operation fails with `InvalidInput` whenever the group has fewer than 2
vectors; but on the concrete one-vector group `[[1, 0]]` the code raises
nothing and returns the empty similarity collection. -/
theorem single_vector_group_returns_empty :
    calculate_cosine_similarities [[(1 : ℝ), 0]] none = .ok [] := rfl

/-- C4 (amended): the similarity operation fails with `InvalidInput` on an
empty group, on a ragged group (dimension mismatch within a group), and on
an inter-group dimension mismatch; but a one-vector group in the
intra-group case does not fail — it yields the empty collection. -/
theorem similarity_error_conditions :
    (∀ e2 : Option (List (List ℝ)),
      calculate_cosine_similarities [] e2 = .error .invalidInput) ∧
    (∀ e1 : List (List ℝ), sameDims e1 = false →
      calculate_cosine_similarities e1 none = .error .invalidInput) ∧
    (∀ e1 b : List (List ℝ), nFeatures e1 ≠ nFeatures b →
      calculate_cosine_similarities e1 (some b) = .error .invalidInput) ∧
    (∀ v : List ℝ, v ≠ [] →
      calculate_cosine_similarities [v] none = .ok []) := by
  refine ⟨fun e2 => ?_, fun e1 h => ?_, fun e1 b h => ?_, fun v hv => ?_⟩
  · cases e2 <;> rfl
  · simp [calculate_cosine_similarities, h]
  · have hb : (nFeatures e1 == nFeatures b) = false := by
      simpa using h
    simp [calculate_cosine_similarities, hb]
  · have h1 : sameDims [v] = true := by simp [sameDims]
    have h2 : (nFeatures [v] != 0) = true := by
      have hlen := List.length_pos.mpr hv
      simp only [nFeatures, List.headD_cons, bne_iff_ne, ne_eq]
      omega
    simp [calculate_cosine_similarities, h1, h2, intraSims]

/-- C4 (witness): concrete instances of each error condition and of the
non-failing one-vector case. -/
theorem similarity_error_conditions_witness :
    calculate_cosine_similarities [] none = .error .invalidInput ∧
    calculate_cosine_similarities [[(1 : ℝ), 0], [(1 : ℝ)]] none =
      .error .invalidInput ∧
    calculate_cosine_similarities [[(1 : ℝ), 0]] (some [[(1 : ℝ)]]) =
      .error .invalidInput ∧
    calculate_cosine_similarities [[(2 : ℝ), 3]] none = .ok [] :=
  ⟨similarity_error_conditions.1 none,
   similarity_error_conditions.2.1 [[(1 : ℝ), 0], [(1 : ℝ)]] rfl,
   similarity_error_conditions.2.2.1 [[(1 : ℝ), 0]] [[(1 : ℝ)]] (by decide),
   similarity_error_conditions.2.2.2 [(2 : ℝ), 3] (by simp)⟩

/-- C5: the claim (and spec §4.2) demand that a zero-variance score
collection be handled by widening the degenerate bin range by an epsilon;
the code's `_calculate_jsd` instead computes `np.linspace(min, max, bins+1)`
directly, so on the zero-variance collection `[1, 1]` the shared range is
degenerate and the bin width is exactly `0` — the division by zero in the
density normalisation is not avoided (NumPy emits NaNs, not an error). -/
theorem degenerate_range_not_widened :
    minScore [(1 : ℝ), 1] = maxScore [(1 : ℝ), 1] ∧
    binWidth (min (minScore [(1 : ℝ), 1]) (minScore [(1 : ℝ), 1]))
      (max (maxScore [(1 : ℝ), 1]) (maxScore [(1 : ℝ), 1])) 30 = 0 := by
  constructor
  · simp [minScore, maxScore]
  · simp [minScore, maxScore, binWidth]

/-- C7: the histogram divergence is symmetric in its two score
collections, and the divergence of a collection against itself is zero. -/
theorem histogram_divergence_symm_self (scoresX scoresY : List ℝ) (b : ℕ) :
    calc_jsd scoresX scoresY b = calc_jsd scoresY scoresX b ∧
    calc_jsd scoresX scoresX b = 0 :=
  ⟨calc_jsd_comm scoresX scoresY b, calc_jsd_self scoresX b⟩

/-- C9: in a permutation-loop iteration driven by a permutation `idx` of
the pooled indices, the synthetic group `A'` has exactly `|A|` vectors,
`B'` has exactly `|B|` vectors, and together they are a rearrangement of
the pooled embeddings (each pooled vector occurs exactly once). -/
theorem permuted_split_partitions_pool (e1 e2 : List (List ℝ))
    (idx : List ℕ)
    (hperm : idx.Perm (List.range (e1.length + e2.length))) :
    (perm_group1 (e1 ++ e2) idx e1.length).length = e1.length ∧
    (perm_group2 (e1 ++ e2) idx e1.length).length = e2.length ∧
    (perm_group1 (e1 ++ e2) idx e1.length ++
      perm_group2 (e1 ++ e2) idx e1.length).Perm (e1 ++ e2) := by
  have hp : idx.Perm (List.range (e1 ++ e2).length) := by
    rwa [List.length_append]
  have hlen : idx.length = (e1 ++ e2).length :=
    hp.length_eq.trans (List.length_range _)
  refine ⟨?_, ?_, perm_groups_perm e1.length hp⟩
  · exact perm_group1_length hlen
      (by rw [List.length_append]; omega)
  · rw [perm_group2_length hlen, List.length_append]
    omega

/-- C9 (witness): a concrete three-element pool split by the permutation
`[2, 0, 1]`. -/
theorem permuted_split_partitions_pool_witness :
    (perm_group1 ([[(1 : ℝ)], [(2 : ℝ)]] ++ [[(3 : ℝ)]]) [2, 0, 1] 2).length = 2 ∧
    (perm_group2 ([[(1 : ℝ)], [(2 : ℝ)]] ++ [[(3 : ℝ)]]) [2, 0, 1] 2).length = 1 ∧
    (perm_group1 ([[(1 : ℝ)], [(2 : ℝ)]] ++ [[(3 : ℝ)]]) [2, 0, 1] 2 ++
      perm_group2 ([[(1 : ℝ)], [(2 : ℝ)]] ++ [[(3 : ℝ)]]) [2, 0, 1] 2).Perm
        ([[(1 : ℝ)], [(2 : ℝ)]] ++ [[(3 : ℝ)]]) :=
  permuted_split_partitions_pool [[(1 : ℝ)], [(2 : ℝ)]] [[(3 : ℝ)]]
    [2, 0, 1] (by decide)

lemma smoothed_ratio_bounds (c n : ℕ) (h : c ≤ n) :
    0 < ((c : ℝ) + 1) / ((n : ℝ) + 1) ∧
      ((c : ℝ) + 1) / ((n : ℝ) + 1) ≤ 1 := by
  constructor
  · positivity
  · rw [div_le_one (by positivity)]
    have : (c : ℝ) ≤ (n : ℝ) := by exact_mod_cast h
    linarith

/-- C1: on valid groups (sizes ≥ 2, common positive dimension) and
permutation draws over the pooled indices, the permutation test computes
the observed statistic asymmetrically as the histogram divergence between
the intra-`A` similarities and the `A`-to-`B` similarities, and its counter
equals the number of iterations whose permuted statistic — recomputed the
same way on the split of the permuted pool into the first `|A|` vectors
and the rest — is at least the observed statistic. -/
theorem permutation_test_structure (e1 e2 : List (List ℝ)) (d n bins : ℕ)
    (randPerms : ℕ → List ℕ) (hd : 0 < d) (h1 : 2 ≤ e1.length)
    (h2 : 2 ≤ e2.length) (hdim1 : ∀ v ∈ e1, v.length = d)
    (hdim2 : ∀ v ∈ e2, v.length = d)
    (hperm : ∀ i < n,
      (randPerms i).Perm (List.range (e1.length + e2.length))) :
    jensen_shannon_divergence_and_pvalue e1 e2 n bins randPerms =
      .ok (calc_jsd (intraSims e1) (interSims e1 e2) bins,
        ((((List.range n).countP (fun i =>
          decide (calc_jsd (intraSims e1) (interSims e1 e2) bins ≤
            calc_jsd
              (intraSims (perm_group1 (e1 ++ e2) (randPerms i) e1.length))
              (interSims (perm_group1 (e1 ++ e2) (randPerms i) e1.length)
                (perm_group2 (e1 ++ e2) (randPerms i) e1.length))
              bins))) : ℝ) + 1) / ((n : ℝ) + 1)) :=
  jsd_pvalue_characterisation n bins randPerms hd h1 (by omega) hdim1
    hdim2 hperm

/-- C1 (witness): the structure theorem applied to two concrete valid
groups. -/
theorem permutation_test_structure_witness :
    ∃ r, jensen_shannon_divergence_and_pvalue [[(1 : ℝ), 0], [0, 1]]
      [[(1 : ℝ), 1], [2, 0]] 0 30 (fun _ => []) = .ok r :=
  ⟨_, permutation_test_structure [[(1 : ℝ), 0], [0, 1]]
    [[(1 : ℝ), 1], [2, 0]] 2 0 30 (fun _ => []) (by decide) (by decide)
    (by decide) (by simp) (by simp)
    (fun i hi => absurd hi (Nat.not_lt_zero i))⟩

/-- C2: on valid groups the returned p-value is exactly
`(count + 1) / (numPermutations + 1)` where `count` is the number of
permuted statistics at least the observed one, and this p-value lies in
`(0, 1]` — in particular it is never 0. -/
theorem pvalue_smoothing_and_range (e1 e2 : List (List ℝ)) (d n bins : ℕ)
    (randPerms : ℕ → List ℕ) (hd : 0 < d) (h1 : 2 ≤ e1.length)
    (h2 : 2 ≤ e2.length) (hdim1 : ∀ v ∈ e1, v.length = d)
    (hdim2 : ∀ v ∈ e2, v.length = d)
    (hperm : ∀ i < n,
      (randPerms i).Perm (List.range (e1.length + e2.length))) :
    jensen_shannon_divergence_and_pvalue e1 e2 n bins randPerms =
      .ok (observedStat e1 e2 bins,
        ((permCount e1 e2 n bins randPerms : ℝ) + 1) / ((n : ℝ) + 1)) ∧
    permCount e1 e2 n bins randPerms ≤ n ∧
    0 < ((permCount e1 e2 n bins randPerms : ℝ) + 1) / ((n : ℝ) + 1) ∧
    ((permCount e1 e2 n bins randPerms : ℝ) + 1) / ((n : ℝ) + 1) ≤ 1 := by
  have hcount : permCount e1 e2 n bins randPerms ≤ n := by
    rw [permCount]
    exact (List.countP_le_length _).trans (by rw [List.length_range])
  obtain ⟨hpos, hle⟩ := smoothed_ratio_bounds _ n hcount
  exact ⟨jsd_pvalue_characterisation n bins randPerms hd h1 (by omega)
    hdim1 hdim2 hperm, hcount, hpos, hle⟩

/-- C2 (witness): the p-value theorem applied to two concrete valid
groups. -/
theorem pvalue_smoothing_and_range_witness :
    ∃ r, jensen_shannon_divergence_and_pvalue [[(2 : ℝ), 0], [0, 2]]
      [[(0 : ℝ), 1], [1, 1]] 0 30 (fun _ => []) = .ok r ∧
      0 < r.2 ∧ r.2 ≤ 1 := by
  obtain ⟨heq, _, hpos, hle⟩ := pvalue_smoothing_and_range
    [[(2 : ℝ), 0], [0, 2]] [[(0 : ℝ), 1], [1, 1]] 2 0 30 (fun _ => [])
    (by decide) (by decide) (by decide) (by simp) (by simp)
    (fun i hi => absurd hi (Nat.not_lt_zero i))
  exact ⟨_, heq, hpos, hle⟩

/-- C6: on a valid group of size `k ≥ 2` the intra-group operation
returns exactly `k(k-1)/2` values — the strictly-upper-triangular entries
of the pairwise similarity matrix in row-major order — each in `[-1, 1]`;
and on valid groups of sizes `k₁`, `k₂` the inter-group operation returns
exactly `k₁·k₂` values in row-major order, each in `[-1, 1]`. -/
theorem similarity_collection_shape (e1 e2 : List (List ℝ)) (d : ℕ)
    (hd : 0 < d) (h1 : 2 ≤ e1.length) (h2 : 1 ≤ e2.length)
    (hdim1 : ∀ v ∈ e1, v.length = d) (hdim2 : ∀ v ∈ e2, v.length = d) :
    calculate_cosine_similarities e1 none = .ok (intraSims e1) ∧
    (intraSims e1).length = e1.length * (e1.length - 1) / 2 ∧
    intraSims e1 = upperTriFrom 0 (simMatrix e1) ∧
    (∀ s ∈ intraSims e1, -1 ≤ s ∧ s ≤ 1) ∧
    calculate_cosine_similarities e1 (some e2) = .ok (interSims e1 e2) ∧
    (interSims e1 e2).length = e1.length * e2.length ∧
    (∀ s ∈ interSims e1 e2, -1 ≤ s ∧ s ≤ 1) := by
  have hne1 : e1 ≠ [] := by
    rw [← List.length_pos]
    omega
  have hne2 : e2 ≠ [] := by
    rw [← List.length_pos]
    omega
  refine ⟨calc_intra_ok hd hne1 hdim1, ?_, intraSims_eq_upperTri e1,
    intraSims_mem_bounds e1, calc_inter_ok hd hne1 hne2 hdim1 hdim2,
    interSims_length e1 e2, interSims_mem_bounds e1 e2⟩
  rw [intraSims_length, Nat.choose_two_right]

/-- C6 (witness): the shape theorem applied to concrete groups of sizes 2
and 1 in dimension 2. -/
theorem similarity_collection_shape_witness :
    calculate_cosine_similarities [[(1 : ℝ), 0], [0, 1]] none =
      .ok (intraSims [[(1 : ℝ), 0], [0, 1]]) ∧
    (intraSims [[(1 : ℝ), 0], [0, 1]]).length = 1 ∧
    (∀ s ∈ intraSims [[(1 : ℝ), 0], [0, 1]], -1 ≤ s ∧ s ≤ 1) := by
  obtain ⟨ha, hb, _, hc, _, _, _⟩ := similarity_collection_shape
    [[(1 : ℝ), 0], [0, 1]] [[(3 : ℝ), 4]] 2 (by decide) (by decide)
    (by decide) (by simp) (by simp)
  exact ⟨ha, hb.trans rfl, hc⟩

/-- C8: the permutation test consumes no randomness beyond the first
`numPermutations` draws, so two runs whose random sources agree on those
draws (e.g. two runs from the same seed) return identical
(statistic, p-value) results. -/
theorem permutation_test_deterministic (e1 e2 : List (List ℝ))
    (n bins : ℕ) (r1 r2 : ℕ → List ℕ) (h : ∀ i < n, r1 i = r2 i) :
    jensen_shannon_divergence_and_pvalue e1 e2 n bins r1 =
      jensen_shannon_divergence_and_pvalue e1 e2 n bins r2 := by
  simp only [jensen_shannon_divergence_and_pvalue]
  cases hc1 : calculate_cosine_similarities e1 none with
  | error e => rfl
  | ok p0 =>
      cases hc2 : calculate_cosine_similarities e1 (some e2) with
      | error e => rfl
      | ok p1 =>
          simp only [ok_bind]
          rw [foldlM_permStep_congr (List.range n)
            (fun i hi => h i (List.mem_range.mp hi)) 0]

/-- C8 (witness): the determinism theorem applied to a concrete input and
a concrete random stream. -/
theorem permutation_test_deterministic_witness :
    jensen_shannon_divergence_and_pvalue [[(1 : ℝ)], [(2 : ℝ)]]
      [[(3 : ℝ)]] 1 30 (fun _ => [0, 1, 2]) =
    jensen_shannon_divergence_and_pvalue [[(1 : ℝ)], [(2 : ℝ)]]
      [[(3 : ℝ)]] 1 30 (fun _ => [0, 1, 2]) :=
  permutation_test_deterministic [[(1 : ℝ)], [(2 : ℝ)]] [[(3 : ℝ)]] 1 30
    (fun _ => [0, 1, 2]) (fun _ => [0, 1, 2]) (fun _ _ => rfl)

/-- C3: the core's `quantify` operation (modelled from the spec, since
`quantify_perturbations` is imported by `interface.py` but absent from the
provided `core.py`) dispatches to the JSD permutation tester for `jsd` and
to the energy permutation test for `energy`, and for *both* methods — on
valid embedded groups — returns the same `(statistic, pValue)` shape, with
the p-value in `(0, 1]`. -/
theorem quantify_perturbations_dispatch
    (embed : String → List (List ℝ))
    (substitute : String → List (String × String) → String)
    (text_orig : String) (change : List (String × String))
    (distance : DistanceMetric) (d n bins : ℕ) (randPerms : ℕ → List ℕ)
    (hd : 0 < d) (h1 : 2 ≤ (embed text_orig).length)
    (h2 : 2 ≤ (embed (substitute text_orig change)).length)
    (hdim1 : ∀ v ∈ embed text_orig, v.length = d)
    (hdim2 : ∀ v ∈ embed (substitute text_orig change), v.length = d)
    (hperm : ∀ i < n, (randPerms i).Perm (List.range
      ((embed text_orig).length +
        (embed (substitute text_orig change)).length))) :
    ∀ method : Method, ∃ s p : ℝ,
      quantify_perturbations embed substitute text_orig change method
        distance n bins randPerms = .ok (s, p) ∧
      0 < p ∧ p ≤ 1 ∧
      quantify_perturbations embed substitute text_orig change .jsd
          distance n bins randPerms =
        jensen_shannon_divergence_and_pvalue (embed text_orig)
          (embed (substitute text_orig change)) n bins randPerms ∧
      quantify_perturbations embed substitute text_orig change .energy
          distance n bins randPerms =
        .ok (energy_test (embed text_orig)
          (embed (substitute text_orig change)) distance n randPerms) := by
  intro method
  have hjsd := jsd_pvalue_characterisation n bins randPerms hd h1
    (by omega) hdim1 hdim2 hperm
  have hjcount : permCount (embed text_orig)
      (embed (substitute text_orig change)) n bins randPerms ≤ n := by
    rw [permCount]
    exact (List.countP_le_length _).trans (by rw [List.length_range])
  obtain ⟨hjpos, hjle⟩ := smoothed_ratio_bounds _ n hjcount
  cases method with
  | jsd => exact ⟨_, _, hjsd, hjpos, hjle, rfl, rfl⟩
  | energy =>
      have hecount : (List.range n).countP (fun i =>
          decide (energy_statistic distance (embed text_orig)
              (embed (substitute text_orig change)) ≤
            energy_statistic distance
              (perm_group1 (embed text_orig ++
                embed (substitute text_orig change)) (randPerms i)
                (embed text_orig).length)
              (perm_group2 (embed text_orig ++
                embed (substitute text_orig change)) (randPerms i)
                (embed text_orig).length))) ≤ n :=
        (List.countP_le_length _).trans (by rw [List.length_range])
      obtain ⟨hepos, hele⟩ := smoothed_ratio_bounds _ n hecount
      exact ⟨_, _, rfl, hepos, hele, rfl, rfl⟩

/-- C3 (witness): the dispatch theorem applied to concrete collaborators
(an embedding backend returning two orthogonal unit vectors, the identity
substitution) for the `jsd` method. -/
theorem quantify_perturbations_dispatch_witness :
    ∃ s p : ℝ, quantify_perturbations (fun _ => [[(1 : ℝ), 0], [0, 1]])
      (fun t _ => t) default [] Method.jsd DistanceMetric.l2 0 30
      (fun _ => []) = .ok (s, p) ∧ 0 < p ∧ p ≤ 1 := by
  obtain ⟨s, p, ha, hb, hc, _, _⟩ := quantify_perturbations_dispatch
    (fun _ => [[(1 : ℝ), 0], [0, 1]]) (fun t _ => t) default []
    DistanceMetric.l2 2 0 30 (fun _ => []) (by decide) (by decide)
    (by decide) (by simp) (by simp)
    (fun i hi => absurd hi (Nat.not_lt_zero i)) Method.jsd
  exact ⟨s, p, ha, hb, hc⟩

/-- C10: the permutation test never modifies an existing array — every
NumPy operation it performs (`np.vstack` pooling, fancy-indexing row
selection) allocates afresh, so in the arena view every array present
before the call, in particular the two input embedding groups, is unchanged
after it. -/
theorem permutation_test_preserves_inputs (h : Heap) (i1 i2 n bins : ℕ)
    (randPerms : ℕ → List ℕ) (j : ℕ) (hj : j < h.arrays.length) :
    (jsd_pvalue_heap h i1 i2 n bins randPerms).2.arrays.getD j [] =
      h.arrays.getD j [] := by
  rw [jsd_pvalue_heap]
  cases hc1 : calculate_cosine_similarities (readArr h i1) none with
  | error e => rfl
  | ok p0 =>
      cases hc2 : calculate_cosine_similarities (readArr h i1)
          (some (readArr h i2)) with
      | error e => rfl
      | ok p1 =>
          simp only []
          have hj' : j < (alloc h (readArr h i1 ++ readArr h i2)).1.arrays.length :=
            lt_of_lt_of_le hj (alloc_length_le h _)
          rw [jsd_loop_heap_preserves _ _ _ _ _ _ _ j hj']
          exact alloc_preserves h _ hj

/-- C10 (witness): the frame theorem applied to a concrete two-array
arena. -/
theorem permutation_test_preserves_inputs_witness :
    (jsd_pvalue_heap ⟨[[[(1 : ℝ), 0], [0, 1]], [[(1 : ℝ), 1]]]⟩ 0 1 0 30
        (fun _ => [])).2.arrays.getD 0 [] =
      (⟨[[[(1 : ℝ), 0], [0, 1]], [[(1 : ℝ), 1]]]⟩ : Heap).arrays.getD 0 [] :=
  permutation_test_preserves_inputs ⟨[[[(1 : ℝ), 0], [0, 1]], [[(1 : ℝ), 1]]]⟩
    0 1 0 30 (fun _ => []) 0 (by decide)

end DBPA
